import Mathlib

/- Verification of the TTL cache with async memoization decorator
(analytics_mcp/utils/cache.py) and the retry-with-backoff executor
(analytics_mcp/utils/google_retry.py).

Python values that can appear as arguments and results are modelled by the
mutually inductive types PyVal / PyList / PyDict.  A PyList is the spine of a
Python tuple, list or set (for a set, the spine records the set's iteration
order); a PyDict is a dict in insertion order with string keys, as produced by
keyword arguments.  Wall-clock timestamps are modelled by integers, backoff
durations by rationals.  The cache store is an association list in insertion
order, mirroring a Python dict.  A call to an async function is modelled by a
pure function returning Except (failure propagation models a raised
exception). -/

mutual
inductive PyVal : Type where
  | none : PyVal
  | bool (b : Bool) : PyVal
  | int (n : Int) : PyVal
  | str (s : String) : PyVal
  | tuple (xs : PyList) : PyVal
  | list (xs : PyList) : PyVal
  | set (xs : PyList) : PyVal
  | dict (es : PyDict) : PyVal

inductive PyList : Type where
  | nil : PyList
  | cons (hd : PyVal) (tl : PyList) : PyList

inductive PyDict : Type where
  | nil : PyDict
  | cons (key : String) (val : PyVal) (tl : PyDict) : PyDict
end

mutual
def PyVal.beq : PyVal → PyVal → Bool
  | .none, .none => true
  | .bool a, .bool b => a == b
  | .int a, .int b => a == b
  | .str a, .str b => a == b
  | .tuple a, .tuple b => PyList.beq a b
  | .list a, .list b => PyList.beq a b
  | .set a, .set b => PyList.beq a b
  | .dict a, .dict b => PyDict.beq a b
  | _, _ => false

def PyList.beq : PyList → PyList → Bool
  | .nil, .nil => true
  | .cons a as, .cons b bs => PyVal.beq a b && PyList.beq as bs
  | _, _ => false

def PyDict.beq : PyDict → PyDict → Bool
  | .nil, .nil => true
  | .cons k v tl, .cons k' v' tl' => k == k' && PyVal.beq v v' && PyDict.beq tl tl'
  | _, _ => false
end

theorem and_eq_true_intro {a b : Bool} (ha : a = true) (hb : b = true) :
    (a && b) = true := by simp [ha, hb]

theorem and_eq_true_elim {a b : Bool} (h : (a && b) = true) : a = true ∧ b = true := by
  simp_all

mutual
theorem PyVal.eq_of_beq_val : ∀ a b : PyVal, PyVal.beq a b = true → a = b
  | .none, .none, _ => rfl
  | .bool _, .bool _, h => congrArg PyVal.bool (eq_of_beq h)
  | .int _, .int _, h => congrArg PyVal.int (eq_of_beq h)
  | .str _, .str _, h => congrArg PyVal.str (eq_of_beq h)
  | .tuple a, .tuple b, h => congrArg PyVal.tuple (PyList.eq_of_beq_list a b h)
  | .list a, .list b, h => congrArg PyVal.list (PyList.eq_of_beq_list a b h)
  | .set a, .set b, h => congrArg PyVal.set (PyList.eq_of_beq_list a b h)
  | .dict a, .dict b, h => congrArg PyVal.dict (PyDict.eq_of_beq_dict a b h)
  | .none, .bool _, h => Bool.noConfusion h
  | .none, .int _, h => Bool.noConfusion h
  | .none, .str _, h => Bool.noConfusion h
  | .none, .tuple _, h => Bool.noConfusion h
  | .none, .list _, h => Bool.noConfusion h
  | .none, .set _, h => Bool.noConfusion h
  | .none, .dict _, h => Bool.noConfusion h
  | .bool _, .none, h => Bool.noConfusion h
  | .bool _, .int _, h => Bool.noConfusion h
  | .bool _, .str _, h => Bool.noConfusion h
  | .bool _, .tuple _, h => Bool.noConfusion h
  | .bool _, .list _, h => Bool.noConfusion h
  | .bool _, .set _, h => Bool.noConfusion h
  | .bool _, .dict _, h => Bool.noConfusion h
  | .int _, .none, h => Bool.noConfusion h
  | .int _, .bool _, h => Bool.noConfusion h
  | .int _, .str _, h => Bool.noConfusion h
  | .int _, .tuple _, h => Bool.noConfusion h
  | .int _, .list _, h => Bool.noConfusion h
  | .int _, .set _, h => Bool.noConfusion h
  | .int _, .dict _, h => Bool.noConfusion h
  | .str _, .none, h => Bool.noConfusion h
  | .str _, .bool _, h => Bool.noConfusion h
  | .str _, .int _, h => Bool.noConfusion h
  | .str _, .tuple _, h => Bool.noConfusion h
  | .str _, .list _, h => Bool.noConfusion h
  | .str _, .set _, h => Bool.noConfusion h
  | .str _, .dict _, h => Bool.noConfusion h
  | .tuple _, .none, h => Bool.noConfusion h
  | .tuple _, .bool _, h => Bool.noConfusion h
  | .tuple _, .int _, h => Bool.noConfusion h
  | .tuple _, .str _, h => Bool.noConfusion h
  | .tuple _, .list _, h => Bool.noConfusion h
  | .tuple _, .set _, h => Bool.noConfusion h
  | .tuple _, .dict _, h => Bool.noConfusion h
  | .list _, .none, h => Bool.noConfusion h
  | .list _, .bool _, h => Bool.noConfusion h
  | .list _, .int _, h => Bool.noConfusion h
  | .list _, .str _, h => Bool.noConfusion h
  | .list _, .tuple _, h => Bool.noConfusion h
  | .list _, .set _, h => Bool.noConfusion h
  | .list _, .dict _, h => Bool.noConfusion h
  | .set _, .none, h => Bool.noConfusion h
  | .set _, .bool _, h => Bool.noConfusion h
  | .set _, .int _, h => Bool.noConfusion h
  | .set _, .str _, h => Bool.noConfusion h
  | .set _, .tuple _, h => Bool.noConfusion h
  | .set _, .list _, h => Bool.noConfusion h
  | .set _, .dict _, h => Bool.noConfusion h
  | .dict _, .none, h => Bool.noConfusion h
  | .dict _, .bool _, h => Bool.noConfusion h
  | .dict _, .int _, h => Bool.noConfusion h
  | .dict _, .str _, h => Bool.noConfusion h
  | .dict _, .tuple _, h => Bool.noConfusion h
  | .dict _, .list _, h => Bool.noConfusion h
  | .dict _, .set _, h => Bool.noConfusion h

theorem PyList.eq_of_beq_list : ∀ a b : PyList, PyList.beq a b = true → a = b
  | .nil, .nil, _ => rfl
  | .cons a as, .cons b bs, h =>
      have h' := and_eq_true_elim h
      congrArg₂ PyList.cons (PyVal.eq_of_beq_val a b h'.1) (PyList.eq_of_beq_list as bs h'.2)
  | .nil, .cons _ _, h => Bool.noConfusion h
  | .cons _ _, .nil, h => Bool.noConfusion h

theorem PyDict.eq_of_beq_dict : ∀ a b : PyDict, PyDict.beq a b = true → a = b
  | .nil, .nil, _ => rfl
  | .cons k v tl, .cons k' v' tl', h => by
      rcases and_eq_true_elim h with ⟨h12, h3⟩
      rcases and_eq_true_elim h12 with ⟨h1, h2⟩
      cases eq_of_beq h1
      exact congrArg₂ (PyDict.cons k) (PyVal.eq_of_beq_val v v' h2) (PyDict.eq_of_beq_dict tl tl' h3)
  | .nil, .cons _ _ _, h => Bool.noConfusion h
  | .cons _ _ _, .nil, h => Bool.noConfusion h
end

mutual
theorem PyVal.beq_refl_val : ∀ a : PyVal, PyVal.beq a a = true
  | .none => rfl
  | .bool b => beq_self_eq_true b
  | .int n => beq_self_eq_true n
  | .str s => beq_self_eq_true s
  | .tuple xs => PyList.beq_refl_list xs
  | .list xs => PyList.beq_refl_list xs
  | .set xs => PyList.beq_refl_list xs
  | .dict es => PyDict.beq_refl_dict es

theorem PyList.beq_refl_list : ∀ a : PyList, PyList.beq a a = true
  | .nil => rfl
  | .cons x xs => and_eq_true_intro (PyVal.beq_refl_val x) (PyList.beq_refl_list xs)

theorem PyDict.beq_refl_dict : ∀ a : PyDict, PyDict.beq a a = true
  | .nil => rfl
  | .cons k v tl =>
      and_eq_true_intro (and_eq_true_intro (beq_self_eq_true k) (PyVal.beq_refl_val v))
        (PyDict.beq_refl_dict tl)
end

instance : DecidableEq PyVal := fun a b =>
  decidable_of_iff (PyVal.beq a b = true)
    ⟨PyVal.eq_of_beq_val a b, fun h => h ▸ PyVal.beq_refl_val a⟩

instance : DecidableEq PyList := fun a b =>
  decidable_of_iff (PyList.beq a b = true)
    ⟨PyList.eq_of_beq_list a b, fun h => h ▸ PyList.beq_refl_list a⟩

instance : DecidableEq PyDict := fun a b =>
  decidable_of_iff (PyDict.beq a b = true)
    ⟨PyDict.eq_of_beq_dict a b, fun h => h ▸ PyDict.beq_refl_dict a⟩

/-- Conversion from a Lean list of values to a Python sequence spine. -/
def PyList.ofList : List PyVal → PyList
  | [] => .nil
  | x :: xs => .cons x (PyList.ofList xs)

/-- Conversion from a Python dict to its entry list in insertion order. -/
def PyDict.entries : PyDict → List (String × PyVal)
  | .nil => []
  | .cons k v tl => (k, v) :: PyDict.entries tl

/-- Conversion from an entry list in insertion order to a Python dict. -/
def PyDict.ofEntries : List (String × PyVal) → PyDict
  | [] => .nil
  | (k, v) :: tl => .cons k v (PyDict.ofEntries tl)

/- Python compares strings lexicographically by code point; this executable
order is used to model the `sorted` call in `_freeze`. -/

def charsLe : List Char → List Char → Bool
  | [], _ => true
  | _ :: _, [] => false
  | a :: as, b :: bs =>
      if a.toNat < b.toNat then true
      else if b.toNat < a.toNat then false
      else charsLe as bs

def keyLe (a b : String) : Bool := charsLe a.data b.data

theorem charsLe_total : ∀ a b : List Char, charsLe a b = true ∨ charsLe b a = true
  | [], _ => Or.inl rfl
  | _ :: _, [] => Or.inr rfl
  | a :: as, b :: bs => by
      by_cases h1 : a.toNat < b.toNat
      · exact Or.inl (by simp [charsLe, h1])
      · by_cases h2 : b.toNat < a.toNat
        · exact Or.inr (by simp [charsLe, h2])
        · rcases charsLe_total as bs with ih | ih
          · exact Or.inl (by simp [charsLe, h1, h2, ih])
          · exact Or.inr (by simp [charsLe, h1, h2, ih])

theorem charsLe_trans : ∀ a b c : List Char,
    charsLe a b = true → charsLe b c = true → charsLe a c = true
  | [], _, _, _, _ => rfl
  | _ :: _, [], _, hab, _ => Bool.noConfusion hab
  | _ :: _, _ :: _, [], _, hbc => Bool.noConfusion hbc
  | a :: as, b :: bs, c :: cs, hab, hbc => by
      simp only [charsLe] at hab hbc ⊢
      by_cases h1 : a.toNat < b.toNat
      · by_cases h2 : b.toNat < c.toNat
        · simp [show a.toNat < c.toNat from by omega]
        · by_cases h3 : c.toNat < b.toNat
          · simp [h2, h3] at hbc
          · simp [show a.toNat < c.toNat from by omega]
      · by_cases h4 : b.toNat < a.toNat
        · simp [h1, h4] at hab
        · have hab' := by simpa [h1, h4] using hab
          by_cases h2 : b.toNat < c.toNat
          · simp [show a.toNat < c.toNat from by omega]
          · by_cases h3 : c.toNat < b.toNat
            · simp [h2, h3] at hbc
            · have hbc' := by simpa [h2, h3] using hbc
              simp [show ¬ a.toNat < c.toNat from by omega,
                show ¬ c.toNat < a.toNat from by omega,
                charsLe_trans as bs cs hab' hbc']

theorem charsLe_antisymm : ∀ a b : List Char,
    charsLe a b = true → charsLe b a = true → a = b
  | [], [], _, _ => rfl
  | [], _ :: _, _, hba => Bool.noConfusion hba
  | _ :: _, [], hab, _ => Bool.noConfusion hab
  | a :: as, b :: bs, hab, hba => by
      simp only [charsLe] at hab hba
      by_cases h1 : a.toNat < b.toNat
      · simp [show ¬ b.toNat < a.toNat from by omega, h1] at hba
      · by_cases h2 : b.toNat < a.toNat
        · simp [h1, h2] at hab
        · have hab' : charsLe as bs = true := by simpa [h1, h2] using hab
          have hba' : charsLe bs as = true := by simpa [h1, h2] using hba
          have heq : a = b :=
            Char.ext_iff.mpr (UInt32.ext_iff.mpr (show a.toNat = b.toNat from by omega))
          exact heq ▸ congrArg (List.cons a) (charsLe_antisymm as bs hab' hba')

/-- The key order used by the model of Python's sorted-by-key step in
freezing a dict: lexicographic comparison of the key strings by code point,
which is how Python compares the (distinct-keyed) tuples produced from a
dict's items. -/
def pairLe (a b : String × PyVal) : Prop := keyLe a.1 b.1 = true

instance : DecidableRel pairLe := fun _ _ => inferInstanceAs (Decidable (_ = true))

instance : IsTotal (String × PyVal) pairLe :=
  ⟨fun a b => charsLe_total a.1.data b.1.data⟩

instance : IsTrans (String × PyVal) pairLe :=
  ⟨fun _ _ _ h1 h2 => charsLe_trans _ _ _ h1 h2⟩

/-- Strict version of the entry order (used only to show sorting is
deterministic on entry lists with pairwise-distinct keys). -/
def pairLtKey (a b : String × PyVal) : Prop := pairLe a b ∧ a.1 ≠ b.1

instance : IsAntisymm (String × PyVal) pairLtKey :=
  ⟨fun _ _ h1 h2 =>
    (h1.2 (String.ext (charsLe_antisymm _ _ h1.1 h2.1))).elim⟩

/-- Model of Python's sorted on the list of (key, frozen value) pairs. -/
def sortPairs (l : List (String × PyVal)) : List (String × PyVal) :=
  l.insertionSort pairLe

mutual
/-- Model of the recursive argument-freezing helper in cache.py: a dict
becomes a tuple of (key, frozen value) 2-tuples sorted by key; a tuple, list
or set becomes a tuple of its frozen elements in iteration order; any other
value is returned unchanged. -/
def _freeze : PyVal → PyVal
  | .dict es =>
      .tuple (PyList.ofList ((sortPairs (PyDict.freezeEntries es)).map
        (fun p => PyVal.tuple (.cons (.str p.1) (.cons p.2 .nil)))))
  | .tuple xs => .tuple (PyList.freezeAll xs)
  | .list xs => .tuple (PyList.freezeAll xs)
  | .set xs => .tuple (PyList.freezeAll xs)
  | v => v

def PyList.freezeAll : PyList → PyList
  | .nil => .nil
  | .cons x xs => .cons (_freeze x) (PyList.freezeAll xs)

def PyDict.freezeEntries : PyDict → List (String × PyVal)
  | .nil => []
  | .cons k v tl => (k, _freeze v) :: PyDict.freezeEntries tl
end

/- The TTL cache of cache.py.  A store is a Python dict from cache keys to
(expiry, value) records, modelled as an association list in insertion order;
an update keeps the entry's position, an insert appends at the end, exactly
as a Python dict behaves.  time.time() is modelled by an explicit integer
argument supplied by the caller's clock. -/

abbrev Store := List (PyVal × Int × PyVal)

def lookupKey (k : PyVal) : Store → Option (Int × PyVal)
  | [] => Option.none
  | (k', r) :: rest => if k' = k then Option.some r else lookupKey k rest

def popKey (k : PyVal) : Store → Store
  | [] => []
  | (k', r) :: rest => if k' = k then rest else (k', r) :: popKey k rest

def insertKey (k : PyVal) (r : Int × PyVal) : Store → Store
  | [] => [(k, r)]
  | (k', r') :: rest => if k' = k then (k, r) :: rest else (k', r') :: insertKey k r rest

/-- Model of min(store, key=expiry): the first key (in iteration order)
whose expiry is minimal, paired with that expiry. -/
def minEntry : Store → Option (PyVal × Int)
  | [] => Option.none
  | (k, r) :: rest =>
    match minEntry rest with
    | Option.none => Option.some (k, r.1)
    | Option.some (k', e') => if r.1 ≤ e' then Option.some (k, r.1) else Option.some (k', e')

structure TTLCache where
  maxsize : Nat
  ttl : Int
  _store : Store
deriving DecidableEq

/-- Model of TTLCache._evict_if_needed: when the store exceeds maxsize, pop
the key with the earliest expiry (first such key in iteration order). -/
def TTLCache._evict_if_needed (c : TTLCache) : TTLCache :=
  if c._store.length ≤ c.maxsize then c
  else
    match minEntry c._store with
    | Option.none => c
    | Option.some (k, _) => { c with _store := popKey k c._store }

/-- Model of TTLCache.get: absent gives None; an entry whose expiry has
passed is popped and treated as absent; otherwise the value is returned and
the store is untouched.  The (possibly) mutated cache is returned alongside
the Python return value. -/
def TTLCache.get (c : TTLCache) (now : Int) (key : PyVal) : Option PyVal × TTLCache :=
  match lookupKey key c._store with
  | Option.none => (Option.none, c)
  | Option.some (expiry, value) =>
      if expiry < now then (Option.none, { c with _store := popKey key c._store })
      else (Option.some value, c)

/-- Model of TTLCache.set: write (now + ttl, value) under the key, then
evict if needed. -/
def TTLCache.set (c : TTLCache) (now : Int) (key value : PyVal) : TTLCache :=
  TTLCache._evict_if_needed { c with _store := insertKey key (now + c.ttl, value) c._store }

/-- The cache key built by the ttl_memoize wrapper:
(fn.module, fn.name, freeze(args), freeze(kwargs)). -/
def memoKey (modName fnName : String) (args : PyList) (kwargs : PyDict) : PyVal :=
  .tuple (.cons (.str modName) (.cons (.str fnName)
    (.cons (_freeze (.tuple args)) (.cons (_freeze (.dict kwargs)) .nil))))

instance {E V : Type} [DecidableEq E] [DecidableEq V] : DecidableEq (Except E V)
  | .ok a, .ok b =>
      if h : a = b then Decidable.isTrue (by rw [h])
      else Decidable.isFalse (by intro he; cases he; exact h rfl)
  | .error a, .error b =>
      if h : a = b then Decidable.isTrue (by rw [h])
      else Decidable.isFalse (by intro he; cases he; exact h rfl)
  | .ok _, .error _ => Decidable.isFalse (by intro he; cases he)
  | .error _, .ok _ => Decidable.isFalse (by intro he; cases he)

/-- Outcome of one call of a ttl_memoize-wrapped function: the Python return
value (value, cached flag) or the propagated failure, the cache state after
the call, and how often the underlying function was invoked during
this call (0 or 1). -/
structure MemoResult (E : Type) where
  result : Except E (PyVal × Bool)
  cache : TTLCache
  invocations : Nat
deriving DecidableEq

/-- Model of one call of the wrapper produced by ttl_memoize(cache)(fn).
The underlying async fn is modelled by a pure function from (args, kwargs)
to a result or a failure of type E.  Python's hit test is hit is not None,
where cache.get returns the stored value or None for absent. -/
def ttl_memoize {E : Type} (f : PyList → PyDict → Except E PyVal)
    (modName fnName : String) (cache : TTLCache) (now : Int)
    (args : PyList) (kwargs : PyDict) : MemoResult E :=
  let key := memoKey modName fnName args kwargs
  let gr := cache.get now key
  let hit := gr.1.getD PyVal.none
  if hit ≠ PyVal.none then ⟨.ok (hit, true), gr.2, 0⟩
  else
    match f args kwargs with
    | .error e => ⟨.error e, gr.2, 1⟩
    | .ok value => ⟨.ok (value, false), gr.2.set now key value, 1⟩

/- The retry executor of google_retry.py. -/

/-- An HttpError as seen by call_with_retry: an optional status_code
attribute and an optional resp.status (None models a missing attribute). -/
structure HttpError where
  status_code : Option Nat
  resp_status : Option Nat
deriving DecidableEq

def TRANSIENT_CODES : List Nat := [429, 500, 502, 503, 504]

/-- Model of getattr(e, "status_code", None) or (e.resp.status if
hasattr(e, "resp") else None): Python's or falls through on a falsy left
operand, i.e. on None and on 0. -/
def extract_code (e : HttpError) : Option Nat :=
  match e.status_code with
  | Option.some c => if c = 0 then e.resp_status else Option.some c
  | Option.none => e.resp_status

/-- Model of code in TRANSIENT_CODES (None is in no list). -/
def isTransientCode : Option Nat → Bool
  | Option.some c => TRANSIENT_CODES.contains c
  | Option.none => false

/-- An attempt outcome that raises an HttpError with a retryable code. -/
def isTransientFailure {V : Type} : Except HttpError V → Bool
  | .error e => isTransientCode (extract_code e)
  | .ok _ => false

/-- Trace of one call_with_retry execution: the returned value or the
re-raised failure, the total number of attempts, and the backoff sleeps
performed between attempts, in order. -/
structure RetryTrace (V : Type) where
  result : Except HttpError V
  attempts : Nat
  sleeps : List ℚ

/-- The retry loop of call_with_retry.  request_exec n is the outcome of the
(n+1)-st invocation of the deferred request; jitter n models the value drawn
from random.uniform(0, 0.25) before the sleep that follows a failing attempt
n.  fuel is the number of retries still allowed, i.e. retries - attempt,
so the loop guard attempt < retries is fuel being nonzero. -/
def retryAux {V : Type} (request_exec : Nat → Except HttpError V) (jitter : Nat → ℚ)
    (base cap : ℚ) : Nat → Nat → RetryTrace V
  | 0, attempt =>
    match request_exec attempt with
    | .ok v => ⟨.ok v, 1, []⟩
    | .error e => ⟨.error e, 1, []⟩
  | fuel + 1, attempt =>
    match request_exec attempt with
    | .ok v => ⟨.ok v, 1, []⟩
    | .error e =>
      if isTransientCode (extract_code e) then
        let t := retryAux request_exec jitter base cap fuel (attempt + 1)
        ⟨t.result, t.attempts + 1, (min cap (base * 2 ^ attempt) + jitter attempt) :: t.sleeps⟩
      else ⟨.error e, 1, []⟩

/-- Model of call_with_retry(request_exec, retries=retries, base=base,
cap=cap), starting at attempt 0 with the full retry budget. -/
def call_with_retry {V : Type} (request_exec : Nat → Except HttpError V) (jitter : Nat → ℚ)
    (retries : Nat) (base cap : ℚ) : RetryTrace V :=
  retryAux request_exec jitter base cap retries 0

/-- The list of backoff sleeps produced by fuel consecutive failing
attempts starting at attempt number a. -/
def backoffList (jitter : Nat → ℚ) (base cap : ℚ) : Nat → Nat → List ℚ
  | _, 0 => []
  | a, fuel + 1 =>
      (min cap (base * 2 ^ a) + jitter a) :: backoffList jitter base cap (a + 1) fuel

/- Association-list lemmas about the store operations. -/

theorem lookupKey_insertKey_self (k : PyVal) (r : Int × PyVal) :
    ∀ s : Store, lookupKey k (insertKey k r s) = Option.some r
  | [] => by simp [insertKey, lookupKey]
  | (k', r') :: rest => by
      by_cases h : k' = k
      · simp [insertKey, h, lookupKey]
      · simp [insertKey, h, lookupKey, lookupKey_insertKey_self k r rest]

theorem lookupKey_popKey_ne (k k₀ : PyVal) (h : k₀ ≠ k) :
    ∀ s : Store, lookupKey k (popKey k₀ s) = lookupKey k s
  | [] => rfl
  | (k', r') :: rest => by
      by_cases hk : k' = k₀
      · subst hk
        simp [popKey, lookupKey, h]
      · by_cases hk2 : k' = k
        · simp [popKey, hk, lookupKey, hk2, Ne.symm h]
        · simp [popKey, hk, lookupKey, hk2, lookupKey_popKey_ne k k₀ h rest]

theorem insertKey_of_not_mem (k : PyVal) (r : Int × PyVal) :
    ∀ s : Store, k ∉ s.map Prod.fst → insertKey k r s = s ++ [(k, r)]
  | [] => fun _ => rfl
  | (k', r') :: rest => fun hmem => by
      have h1 : k' ≠ k := fun he => hmem (by simp [he])
      have h2 : k ∉ rest.map Prod.fst := fun hm => hmem (by simp [hm])
      simp [insertKey, h1, insertKey_of_not_mem k r rest h2]

theorem length_insertKey (k : PyVal) (r : Int × PyVal) :
    ∀ s : Store, (insertKey k r s).length = s.length ∨
      (insertKey k r s).length = s.length + 1
  | [] => Or.inr rfl
  | (k', r') :: rest => by
      by_cases h : k' = k
      · simp [insertKey, h]
      · rcases length_insertKey k r rest with ih | ih
        · exact Or.inl (by simp [insertKey, h, ih])
        · exact Or.inr (by simp [insertKey, h, ih])

theorem mem_keys_insertKey (a k : PyVal) (r : Int × PyVal) :
    ∀ s : Store, a ∈ (insertKey k r s).map Prod.fst →
      a ∈ s.map Prod.fst ∨ a = k
  | [] => fun hmem => by
      rw [show insertKey k r [] = [(k, r)] from rfl] at hmem
      simp at hmem
      exact Or.inr hmem
  | (k', r') :: rest => fun hmem => by
      by_cases h : k' = k
      · rw [show insertKey k r ((k', r') :: rest) = (k, r) :: rest from by
            simp [insertKey, h], List.map_cons] at hmem
        rcases List.mem_cons.mp hmem with h1 | h1
        · exact Or.inr h1
        · exact Or.inl (by rw [List.map_cons]; exact List.mem_cons_of_mem _ h1)
      · rw [show insertKey k r ((k', r') :: rest) = (k', r') :: insertKey k r rest from by
            simp [insertKey, h], List.map_cons] at hmem
        rcases List.mem_cons.mp hmem with h1 | h1
        · exact Or.inl (by rw [List.map_cons]; exact List.mem_cons.mpr (Or.inl h1))
        · rcases mem_keys_insertKey a k r rest h1 with h2 | h2
          · exact Or.inl (by rw [List.map_cons]; exact List.mem_cons_of_mem _ h2)
          · exact Or.inr h2

theorem keys_insertKey_nodup (k : PyVal) (r : Int × PyVal) :
    ∀ s : Store, (s.map Prod.fst).Nodup → ((insertKey k r s).map Prod.fst).Nodup
  | [] => fun _ => by simp [insertKey]
  | (k', r') :: rest => fun hnd => by
      rw [List.map_cons] at hnd
      rcases List.nodup_cons.mp hnd with ⟨hk', hrest⟩
      by_cases h : k' = k
      · subst h
        rw [show insertKey k' r ((k', r') :: rest) = (k', r) :: rest from by
            simp [insertKey], List.map_cons]
        exact List.nodup_cons.mpr ⟨hk', hrest⟩
      · rw [show insertKey k r ((k', r') :: rest) = (k', r') :: insertKey k r rest from by
            simp [insertKey, h], List.map_cons]
        refine List.nodup_cons.mpr ⟨?_, keys_insertKey_nodup k r rest hrest⟩
        intro hmem
        rcases mem_keys_insertKey k' k r rest hmem with h1 | h1
        · exact hk' h1
        · exact h h1

theorem popKey_sublist (k : PyVal) : ∀ s : Store, (popKey k s).Sublist s
  | [] => List.Sublist.refl []
  | (k', r') :: rest => by
      by_cases h : k' = k
      · rw [show popKey k ((k', r') :: rest) = rest from by simp [popKey, h]]
        exact List.sublist_cons_self (k', r') rest
      · simpa [popKey, h] using List.Sublist.cons₂ (k', r') (popKey_sublist k rest)

theorem length_popKey_mem (k : PyVal) :
    ∀ s : Store, k ∈ s.map Prod.fst → (popKey k s).length + 1 = s.length
  | [] => by simp
  | (k', r') :: rest => fun hmem => by
      by_cases h : k' = k
      · simp [popKey, h]
      · rw [List.map_cons] at hmem
        have hm : k ∈ rest.map Prod.fst := by
          rcases List.mem_cons.mp hmem with h1 | h1
          · exact absurd h1.symm h
          · exact h1
        simp [popKey, h, ← length_popKey_mem k rest hm]

theorem lookupKey_eq_none_of_not_mem (k : PyVal) :
    ∀ s : Store, k ∉ s.map Prod.fst → lookupKey k s = Option.none
  | [] => fun _ => rfl
  | (k', r') :: rest => fun hmem => by
      have h1 : k' ≠ k := fun he => hmem (by simp [he])
      have h2 : k ∉ rest.map Prod.fst := fun hm => hmem (by simp [hm])
      simp [lookupKey, h1, lookupKey_eq_none_of_not_mem k rest h2]

theorem not_mem_keys_popKey (k : PyVal) :
    ∀ s : Store, (s.map Prod.fst).Nodup → k ∉ (popKey k s).map Prod.fst
  | [] => by simp [popKey]
  | (k', r') :: rest => fun hnd => by
      rw [List.map_cons] at hnd
      rcases List.nodup_cons.mp hnd with ⟨hk', hrest⟩
      by_cases h : k' = k
      · subst h
        rw [show popKey k' ((k', r') :: rest) = rest from by simp [popKey]]
        exact hk'
      · rw [show popKey k ((k', r') :: rest) = (k', r') :: popKey k rest from by
            simp [popKey, h], List.map_cons]
        intro hmem
        rcases List.mem_cons.mp hmem with h1 | h1
        · exact h h1.symm
        · exact not_mem_keys_popKey k rest hrest h1

theorem minEntry_mem : ∀ s : Store, ∀ k : PyVal, ∀ e : Int,
    minEntry s = Option.some (k, e) → ∃ v, (k, (e, v)) ∈ s
  | [] => by simp [minEntry]
  | (k', r') :: rest => fun k e hmin => by
      rcases hrec : minEntry rest with _ | ⟨k₀, e₀⟩
      · simp [minEntry, hrec] at hmin
        exact ⟨r'.2, by simp [hmin.1, ← hmin.2]⟩
      · by_cases h : r'.1 ≤ e₀
        · simp [minEntry, hrec, h] at hmin
          exact ⟨r'.2, by simp [hmin.1, ← hmin.2]⟩
        · simp [minEntry, hrec, h] at hmin
          rcases minEntry_mem rest k e (by rw [hrec, hmin.1, hmin.2]) with ⟨v, hv⟩
          exact ⟨v, List.mem_cons_of_mem _ hv⟩

theorem minEntry_isSome : ∀ s : Store, s ≠ [] → ∃ k e, minEntry s = Option.some (k, e)
  | [] => fun h => absurd rfl h
  | (k', r') :: rest => fun _ => by
      rcases hrec : minEntry rest with _ | ⟨k₀, e₀⟩
      · exact ⟨k', r'.1, by simp [minEntry, hrec]⟩
      · by_cases h : r'.1 ≤ e₀
        · exact ⟨k', r'.1, by simp [minEntry, hrec, h]⟩
        · exact ⟨k₀, e₀, by simp [minEntry, hrec, h]⟩

theorem minEntry_le : ∀ s : Store, ∀ k : PyVal, ∀ e : Int,
    minEntry s = Option.some (k, e) → ∀ p ∈ s, e ≤ p.2.1
  | [] => by simp [minEntry]
  | (k', r') :: rest => fun k e hmin p hp => by
      rcases hrec : minEntry rest with _ | ⟨k₀, e₀⟩
      · cases rest with
        | nil =>
            simp [minEntry] at hmin
            rcases List.mem_cons.mp hp with h1 | h1
            · rw [h1, ← hmin.2]
            · simp at h1
        | cons q qs =>
            exfalso
            rcases minEntry_isSome (q :: qs) (by simp) with ⟨a, b, hab⟩
            rw [hab] at hrec
            exact Option.noConfusion hrec
      · rw [show minEntry ((k', r') :: rest)
            = if r'.1 ≤ e₀ then Option.some (k', r'.1) else Option.some (k₀, e₀) from by
              simp [minEntry, hrec]] at hmin
        by_cases h : r'.1 ≤ e₀
        · rw [if_pos h] at hmin
          have h2 := Option.some.inj hmin
          have he : r'.1 = e := congrArg Prod.snd h2
          rcases List.mem_cons.mp hp with h1 | h1
          · rw [h1, ← he]
          · exact he ▸ le_trans h (minEntry_le rest k₀ e₀ hrec p h1)
        · rw [if_neg h] at hmin
          have h2 := Option.some.inj hmin
          have he : e₀ = e := congrArg Prod.snd h2
          rcases List.mem_cons.mp hp with h1 | h1
          · rw [h1, ← he]
            exact le_of_lt (lt_of_not_ge h)
          · exact he ▸ minEntry_le rest k₀ e₀ hrec p h1

theorem minEntry_append (k : PyVal) (e : Int) (v : PyVal) :
    ∀ s : Store, s ≠ [] → (∀ p ∈ s, p.2.1 ≤ e) →
      minEntry (s ++ [(k, (e, v))]) = minEntry s
  | [] => fun h => absurd rfl h
  | (k', r') :: rest => fun _ hle => by
      cases rest with
      | nil =>
          have h1 : r'.1 ≤ e := hle (k', r') (by simp)
          simp [minEntry, h1]
      | cons q qs =>
          have ih := minEntry_append k e v (q :: qs) (by simp)
            (fun p hp => hle p (List.mem_cons_of_mem _ hp))
          simp only [List.cons_append, minEntry] at ih ⊢
          rw [ih]

theorem length_insertKey_mem (k : PyVal) (r : Int × PyVal) :
    ∀ s : Store, k ∈ s.map Prod.fst → (insertKey k r s).length = s.length
  | [] => by simp
  | (k', r') :: rest => fun hmem => by
      by_cases h : k' = k
      · simp [insertKey, h]
      · rw [List.map_cons] at hmem
        have hm : k ∈ rest.map Prod.fst := by
          rcases List.mem_cons.mp hmem with h1 | h1
          · exact absurd h1.symm h
          · exact h1
        simp [insertKey, h, length_insertKey_mem k r rest hm]

/- Cache-level lemmas. -/

theorem evict_of_le (c : TTLCache) (h : c._store.length ≤ c.maxsize) :
    c._evict_if_needed = c := by
  unfold TTLCache._evict_if_needed
  rw [if_pos h]

theorem evict_of_gt (c : TTLCache) (h : ¬ c._store.length ≤ c.maxsize)
    (k₀ : PyVal) (e₀ : Int) (hmin : minEntry c._store = Option.some (k₀, e₀)) :
    c._evict_if_needed = { c with _store := popKey k₀ c._store } := by
  unfold TTLCache._evict_if_needed
  rw [if_neg h, hmin]

theorem TTLCache.maxsize_evict (c : TTLCache) : c._evict_if_needed.maxsize = c.maxsize := by
  by_cases h : c._store.length ≤ c.maxsize
  · rw [evict_of_le c h]
  · rcases minEntry_isSome c._store
        (fun h0 => h ((by rw [h0]; exact Nat.zero_le _ : c._store.length ≤ c.maxsize))) with
      ⟨k₀, e₀, hmin⟩
    rw [evict_of_gt c h k₀ e₀ hmin]

theorem TTLCache.ttl_evict (c : TTLCache) : c._evict_if_needed.ttl = c.ttl := by
  by_cases h : c._store.length ≤ c.maxsize
  · rw [evict_of_le c h]
  · rcases minEntry_isSome c._store
        (fun h0 => h ((by rw [h0]; exact Nat.zero_le _ : c._store.length ≤ c.maxsize))) with
      ⟨k₀, e₀, hmin⟩
    rw [evict_of_gt c h k₀ e₀ hmin]

theorem TTLCache.maxsize_set (c : TTLCache) (now : Int) (k v : PyVal) :
    (c.set now k v).maxsize = c.maxsize := by
  unfold TTLCache.set
  rw [TTLCache.maxsize_evict]

theorem TTLCache.ttl_set (c : TTLCache) (now : Int) (k v : PyVal) :
    (c.set now k v).ttl = c.ttl := by
  unfold TTLCache.set
  rw [TTLCache.ttl_evict]

theorem TTLCache.lookup_set_self (c : TTLCache) (now : Int) (k v : PyVal)
    (hmono : ∀ p ∈ c._store, p.2.1 ≤ now + c.ttl)
    (hmax : 1 ≤ c.maxsize) (hinv : c._store.length ≤ c.maxsize) :
    lookupKey k (c.set now k v)._store = Option.some (now + c.ttl, v) := by
  unfold TTLCache.set
  by_cases hlen : (insertKey k (now + c.ttl, v) c._store).length ≤ c.maxsize
  · rw [evict_of_le _ hlen]
    exact lookupKey_insertKey_self k _ c._store
  · have hmem : k ∉ c._store.map Prod.fst := by
      intro hmem
      exact hlen (le_trans (le_of_eq (length_insertKey_mem k _ c._store hmem)) hinv)
    have happ : insertKey k (now + c.ttl, v) c._store
        = c._store ++ [(k, (now + c.ttl, v))] :=
      insertKey_of_not_mem k _ c._store hmem
    have hne : c._store ≠ [] := by
      intro h0
      rw [happ, h0] at hlen
      simp at hlen
      omega
    rcases minEntry_isSome c._store hne with ⟨k₀, e₀, hk₀⟩
    have hmin : minEntry (insertKey k (now + c.ttl, v) c._store) = Option.some (k₀, e₀) := by
      rw [happ, minEntry_append k (now + c.ttl) v c._store hne hmono, hk₀]
    rcases minEntry_mem c._store k₀ e₀ hk₀ with ⟨v₀, hv₀⟩
    have hk₀mem : k₀ ∈ c._store.map Prod.fst := List.mem_map_of_mem Prod.fst hv₀
    have hk₀ne : k₀ ≠ k := fun he => hmem (he ▸ hk₀mem)
    rw [evict_of_gt _ hlen k₀ e₀ hmin]
    exact (lookupKey_popKey_ne k k₀ hk₀ne _).trans (lookupKey_insertKey_self k _ c._store)

theorem TTLCache.length_set_le (c : TTLCache) (now : Int) (k v : PyVal)
    (hinv : c._store.length ≤ c.maxsize) :
    (c.set now k v)._store.length ≤ c.maxsize := by
  unfold TTLCache.set
  by_cases hlen : (insertKey k (now + c.ttl, v) c._store).length ≤ c.maxsize
  · rw [evict_of_le _ hlen]
    exact hlen
  · have hne : insertKey k (now + c.ttl, v) c._store ≠ [] := by
      intro h0
      rw [h0] at hlen
      exact hlen (Nat.zero_le _)
    rcases minEntry_isSome _ hne with ⟨k₀, e₀, hmin⟩
    rw [evict_of_gt _ hlen k₀ e₀ hmin]
    rcases minEntry_mem _ k₀ e₀ hmin with ⟨v₀, hv₀⟩
    have hk₀mem : k₀ ∈ (insertKey k (now + c.ttl, v) c._store).map Prod.fst :=
      List.mem_map_of_mem Prod.fst hv₀
    have hlp := length_popKey_mem k₀ _ hk₀mem
    rcases length_insertKey k (now + c.ttl, v) c._store with h | h
    · show (popKey k₀ (insertKey k (now + c.ttl, v) c._store)).length ≤ c.maxsize
      omega
    · show (popKey k₀ (insertKey k (now + c.ttl, v) c._store)).length ≤ c.maxsize
      omega

theorem TTLCache.keys_set_nodup (c : TTLCache) (now : Int) (k v : PyVal)
    (hnd : (c._store.map Prod.fst).Nodup) :
    ((c.set now k v)._store.map Prod.fst).Nodup := by
  unfold TTLCache.set
  have hins := keys_insertKey_nodup k (now + c.ttl, v) c._store hnd
  by_cases hlen : (insertKey k (now + c.ttl, v) c._store).length ≤ c.maxsize
  · rw [evict_of_le _ hlen]
    exact hins
  · have hne : insertKey k (now + c.ttl, v) c._store ≠ [] := by
      intro h0
      rw [h0] at hlen
      exact hlen (Nat.zero_le _)
    rcases minEntry_isSome _ hne with ⟨k₀, e₀, hmin⟩
    rw [evict_of_gt _ hlen k₀ e₀ hmin]
    exact List.Nodup.sublist ((popKey_sublist k₀ _).map Prod.fst) hins

theorem TTLCache.lookup_set_cases (c : TTLCache) (now : Int) (k v : PyVal)
    (hnd : (c._store.map Prod.fst).Nodup) :
    lookupKey k (c.set now k v)._store = Option.none ∨
    lookupKey k (c.set now k v)._store = Option.some (now + c.ttl, v) := by
  unfold TTLCache.set
  by_cases hlen : (insertKey k (now + c.ttl, v) c._store).length ≤ c.maxsize
  · rw [evict_of_le _ hlen]
    exact Or.inr (lookupKey_insertKey_self k _ c._store)
  · have hne : insertKey k (now + c.ttl, v) c._store ≠ [] := by
      intro h0
      rw [h0] at hlen
      exact hlen (Nat.zero_le _)
    rcases minEntry_isSome _ hne with ⟨k₀, e₀, hmin⟩
    rw [evict_of_gt _ hlen k₀ e₀ hmin]
    by_cases hk : k₀ = k
    · subst hk
      exact Or.inl (lookupKey_eq_none_of_not_mem k₀ _
        (not_mem_keys_popKey k₀ _ (keys_insertKey_nodup k₀ _ c._store hnd)))
    · exact Or.inr ((lookupKey_popKey_ne k k₀ hk _).trans
        (lookupKey_insertKey_self k _ c._store))

/-- A sequence of TTLCache.set calls: each element gives the clock value and
the key/value pair written. -/
def applySets (ops : List (Int × PyVal × PyVal)) (c : TTLCache) : TTLCache :=
  ops.foldl (fun acc op => acc.set op.1 op.2.1 op.2.2) c

theorem applySets_length_le : ∀ (ops : List (Int × PyVal × PyVal)) (c : TTLCache),
    c._store.length ≤ c.maxsize → (applySets ops c)._store.length ≤ c.maxsize
  | [], c => fun h => h
  | op :: ops, c => fun h => by
      have h1 : (c.set op.1 op.2.1 op.2.2)._store.length ≤ c.maxsize :=
        TTLCache.length_set_le c op.1 op.2.1 op.2.2 h
      have h2 : (c.set op.1 op.2.1 op.2.2).maxsize = c.maxsize :=
        TTLCache.maxsize_set c op.1 op.2.1 op.2.2
      have h3 := applySets_length_le ops (c.set op.1 op.2.1 op.2.2) (by rw [h2]; exact h1)
      rw [h2] at h3
      simpa [applySets] using h3

/- Retry-loop lemmas. -/

theorem backoffList_eq_map (jitter : Nat → ℚ) (base cap : ℚ) :
    ∀ (fuel a : Nat), backoffList jitter base cap a fuel
      = (List.range fuel).map (fun i => min cap (base * 2 ^ (a + i)) + jitter (a + i))
  | 0, _ => rfl
  | fuel + 1, a => by
      have ih := backoffList_eq_map jitter base cap fuel (a + 1)
      rw [show backoffList jitter base cap a (fuel + 1)
          = (min cap (base * 2 ^ a) + jitter a) :: backoffList jitter base cap (a + 1) fuel
          from rfl, ih, List.range_succ_eq_map, List.map_cons, List.map_map]
      refine congrArg₂ List.cons (by simp) ?_
      refine List.map_congr_left ?_
      intro i _
      simp only [Function.comp_apply, Nat.succ_eq_add_one]
      rw [show a + (i + 1) = a + 1 + i from by omega]

theorem retryAux_nontransient {V : Type} (request_exec : Nat → Except HttpError V)
    (jitter : Nat → ℚ) (base cap : ℚ) (fuel attempt : Nat) (e : HttpError)
    (hx : request_exec attempt = .error e)
    (hnt : isTransientCode (extract_code e) = false) :
    retryAux request_exec jitter base cap fuel attempt = ⟨.error e, 1, []⟩ := by
  cases fuel with
  | zero => simp [retryAux, hx]
  | succ fuel => simp [retryAux, hx, hnt]

theorem retryAux_exhaust {V : Type} (request_exec : Nat → Except HttpError V)
    (jitter : Nat → ℚ) (base cap : ℚ) :
    ∀ (fuel attempt : Nat),
      (∀ n, attempt ≤ n → n ≤ attempt + fuel → isTransientFailure (request_exec n) = true) →
      retryAux request_exec jitter base cap fuel attempt =
        ⟨request_exec (attempt + fuel), fuel + 1, backoffList jitter base cap attempt fuel⟩
  | 0, attempt => fun h => by
      have h0 := h attempt le_rfl (by omega)
      rcases hx : request_exec attempt with e | v
      · simp [retryAux, hx, backoffList]
      · rw [hx] at h0
        simp [isTransientFailure] at h0
  | fuel + 1, attempt => fun h => by
      have h0 := h attempt le_rfl (by omega)
      rcases hx : request_exec attempt with e | v
      · have ht : isTransientCode (extract_code e) = true := by
          rw [hx] at h0
          simpa [isTransientFailure] using h0
        have ih := retryAux_exhaust request_exec jitter base cap fuel (attempt + 1)
          (fun n h1 h2 => h n (by omega) (by omega))
        simp only [retryAux, hx, ht, if_true, ih]
        rw [show attempt + 1 + fuel = attempt + (fuel + 1) from by omega]
        rfl
      · rw [hx] at h0
        simp [isTransientFailure] at h0

theorem retryAux_success {V : Type} (request_exec : Nat → Except HttpError V)
    (jitter : Nat → ℚ) (base cap : ℚ) :
    ∀ (fuel attempt k : Nat) (v : V), attempt ≤ k → k ≤ attempt + fuel →
      (∀ n, attempt ≤ n → n < k → isTransientFailure (request_exec n) = true) →
      request_exec k = .ok v →
      retryAux request_exec jitter base cap fuel attempt =
        ⟨.ok v, k - attempt + 1, backoffList jitter base cap attempt (k - attempt)⟩
  | 0, attempt, k, v => fun h1 h2 htrans hok => by
      have hk : k = attempt := by omega
      subst hk
      simp [retryAux, hok, Nat.sub_self, backoffList]
  | fuel + 1, attempt, k, v => fun h1 h2 htrans hok => by
      by_cases hk : k = attempt
      · subst hk
        simp [retryAux, hok, Nat.sub_self, backoffList]
      · have hlt : attempt < k := by omega
        have h0 := htrans attempt le_rfl hlt
        rcases hx : request_exec attempt with e | v'
        · have ht : isTransientCode (extract_code e) = true := by
            rw [hx] at h0
            simpa [isTransientFailure] using h0
          have ih := retryAux_success request_exec jitter base cap fuel (attempt + 1) k v
            (by omega) (by omega) (fun n hn1 hn2 => htrans n (by omega) hn2) hok
          simp only [retryAux, hx, ht, if_true, ih]
          obtain ⟨m, hm⟩ : ∃ m, k - attempt = m + 1 := ⟨k - attempt - 1, by omega⟩
          rw [hm, show k - (attempt + 1) = m from by omega]
          rfl
        · rw [hx] at h0
          simp [isTransientFailure] at h0

/- Memoization-wrapper lemmas. -/

theorem memoize_miss_stores {E : Type} (f : PyList → PyDict → Except E PyVal)
    (modName fnName : String) (c : TTLCache) (now : Int)
    (args : PyList) (kwargs : PyDict) (v : PyVal)
    (hf : f args kwargs = Except.ok v)
    (habsent : lookupKey (memoKey modName fnName args kwargs) c._store = Option.none) :
    ttl_memoize f modName fnName c now args kwargs =
      ⟨.ok (v, false), c.set now (memoKey modName fnName args kwargs) v, 1⟩ := by
  simp [ttl_memoize, TTLCache.get, habsent, hf]

theorem memoize_hit {E : Type} (f : PyList → PyDict → Except E PyVal)
    (modName fnName : String) (c : TTLCache) (now : Int)
    (args : PyList) (kwargs : PyDict) (exp : Int) (v : PyVal)
    (hlook : lookupKey (memoKey modName fnName args kwargs) c._store
      = Option.some (exp, v))
    (hfresh : ¬ exp < now) (hv : v ≠ PyVal.none) :
    ttl_memoize f modName fnName c now args kwargs = ⟨.ok (v, true), c, 0⟩ := by
  simp [ttl_memoize, TTLCache.get, hlook, hfresh, hv]

theorem get_value_none (c : TTLCache) (t : Int) (key : PyVal)
    (hkey : ∀ exp w, lookupKey key c._store = Option.some (exp, w) → w = PyVal.none) :
    ((c.get t key).1).getD PyVal.none = PyVal.none := by
  unfold TTLCache.get
  rcases h : lookupKey key c._store with _ | ⟨exp, w⟩
  · rfl
  · have hw := hkey exp w h
    by_cases hx : exp < t <;> simp [h, hx, hw]

theorem get_store_sublist (c : TTLCache) (t : Int) (key : PyVal) :
    ((c.get t key).2)._store.Sublist c._store := by
  unfold TTLCache.get
  rcases h : lookupKey key c._store with _ | ⟨exp, v⟩
  · exact List.Sublist.refl _
  · by_cases hx : exp < t
    · simp only [hx, if_true]
      exact popKey_sublist key c._store
    · simp only [hx, if_false]
      exact List.Sublist.refl _

theorem TTLCache.ttl_get (c : TTLCache) (t : Int) (key : PyVal) :
    ((c.get t key).2).ttl = c.ttl := by
  unfold TTLCache.get
  rcases h : lookupKey key c._store with _ | ⟨exp, v⟩
  · rfl
  · by_cases hx : exp < t <;> simp [h, hx]

theorem TTLCache.maxsize_get (c : TTLCache) (t : Int) (key : PyVal) :
    ((c.get t key).2).maxsize = c.maxsize := by
  unfold TTLCache.get
  rcases h : lookupKey key c._store with _ | ⟨exp, v⟩
  · rfl
  · by_cases hx : exp < t <;> simp [h, hx]

theorem get_miss_of_expired (c : TTLCache) (t : Int) (key : PyVal)
    (hkey : ∀ exp w, lookupKey key c._store = Option.some (exp, w) → exp < t) :
    ((c.get t key).1).getD PyVal.none = PyVal.none := by
  unfold TTLCache.get
  rcases h : lookupKey key c._store with _ | ⟨exp, w⟩
  · rfl
  · simp [h, hkey exp w h]

theorem miss_propagates (c : TTLCache) (t : Int) (key : PyVal)
    (hkeys : (c._store.map Prod.fst).Nodup)
    (hmiss : ((c.get t key).1).getD PyVal.none = PyVal.none) :
    ∀ exp w, lookupKey key ((c.get t key).2)._store = Option.some (exp, w) →
      w = PyVal.none := by
  unfold TTLCache.get at hmiss ⊢
  rcases h : lookupKey key c._store with _ | ⟨exp0, w0⟩
  · intro exp w hw
    rw [h] at hw
    exact Option.noConfusion hw
  · by_cases hx : exp0 < t
    · intro exp w hw
      simp only [h, hx, if_true] at hw
      rw [lookupKey_eq_none_of_not_mem key _ (not_mem_keys_popKey key _ hkeys)] at hw
      exact Option.noConfusion hw
    · rw [h] at hmiss
      simp only [hx, if_false] at hmiss
      have hw0 : w0 = PyVal.none := by simpa using hmiss
      intro exp w hw
      simp only [h, hx, if_false] at hw
      have h2 : w0 = w := congrArg Prod.snd (Option.some.inj hw)
      rw [← h2]
      exact hw0

theorem ttl_memoize_of_miss {E : Type} (f : PyList → PyDict → Except E PyVal)
    (modName fnName : String) (c : TTLCache) (t : Int)
    (args : PyList) (kwargs : PyDict)
    (hmiss : ((c.get t (memoKey modName fnName args kwargs)).1).getD PyVal.none
      = PyVal.none) :
    (ttl_memoize f modName fnName c t args kwargs).invocations = 1 ∧
    (∀ e, f args kwargs = Except.error e →
      ttl_memoize f modName fnName c t args kwargs
        = ⟨.error e, (c.get t (memoKey modName fnName args kwargs)).2, 1⟩) ∧
    (∀ v, f args kwargs = Except.ok v →
      ttl_memoize f modName fnName c t args kwargs
        = ⟨.ok (v, false),
           ((c.get t (memoKey modName fnName args kwargs)).2).set t
             (memoKey modName fnName args kwargs) v, 1⟩) := by
  refine ⟨?_, ?_, ?_⟩
  · rcases hf : f args kwargs with e | v <;> simp [ttl_memoize, hmiss, hf]
  · intro e hf
    simp [ttl_memoize, hmiss, hf]
  · intro v hf
    simp [ttl_memoize, hmiss, hf]

/- Freezing lemmas. -/

theorem freezeEntries_ofEntries :
    ∀ l : List (String × PyVal),
      PyDict.freezeEntries (PyDict.ofEntries l) = l.map (fun p => (p.1, _freeze p.2))
  | [] => rfl
  | (k, v) :: tl => by
      simp [PyDict.ofEntries, PyDict.freezeEntries, freezeEntries_ofEntries tl]

theorem pairwise_ne_of_keys_nodup {l : List (String × PyVal)}
    (h : (l.map Prod.fst).Nodup) : l.Pairwise (fun a b => a.1 ≠ b.1) :=
  List.pairwise_map.mp h

theorem sortPairs_eq_of_perm (l1 l2 : List (String × PyVal))
    (hperm : l1.Perm l2) (hnd : (l1.map Prod.fst).Nodup) :
    sortPairs l1 = sortPairs l2 := by
  have hp1 : (sortPairs l1).Perm l1 := List.perm_insertionSort pairLe l1
  have hp2 : (sortPairs l2).Perm l2 := List.perm_insertionSort pairLe l2
  have hs1 : (sortPairs l1).Sorted pairLe := List.sorted_insertionSort pairLe l1
  have hs2 : (sortPairs l2).Sorted pairLe := List.sorted_insertionSort pairLe l2
  have hperm12 : (sortPairs l1).Perm (sortPairs l2) := hp1.trans (hperm.trans hp2.symm)
  have hnd2 : (l2.map Prod.fst).Nodup := ((hperm.map Prod.fst).nodup_iff).mp hnd
  have hnd1' : ((sortPairs l1).map Prod.fst).Nodup := ((hp1.map Prod.fst).nodup_iff).mpr hnd
  have hnd2' : ((sortPairs l2).map Prod.fst).Nodup := ((hp2.map Prod.fst).nodup_iff).mpr hnd2
  have hlt1 : (sortPairs l1).Pairwise pairLtKey :=
    (hs1.and (pairwise_ne_of_keys_nodup hnd1')).imp (fun h => ⟨h.1, h.2⟩)
  have hlt2 : (sortPairs l2).Pairwise pairLtKey :=
    (hs2.and (pairwise_ne_of_keys_nodup hnd2')).imp (fun h => ⟨h.1, h.2⟩)
  exact List.eq_of_perm_of_sorted hperm12 hlt1 hlt2

/-- Inverse of PyList.ofList, giving the elements of a Python sequence. -/
def PyList.toList : PyList → List PyVal
  | .nil => []
  | .cons x xs => x :: PyList.toList xs

theorem freezeAll_ofList :
    ∀ l : List PyVal, PyList.freezeAll (PyList.ofList l) = PyList.ofList (l.map _freeze)
  | [] => rfl
  | x :: xs => by
      simp [PyList.ofList, PyList.freezeAll, freezeAll_ofList xs]

/- Claim theorems. -/

/-- C5: call_with_retry retries a failure only when its extractable status
code is one of 429, 500, 502, 503, 504; any failure with another code, or
with no extractable code at all, is propagated unchanged after exactly one
attempt, with no backoff sleep. -/
theorem nontransient_short_circuit {V : Type}
    (request_exec : Nat → Except HttpError V) (jitter : Nat → ℚ)
    (retries : Nat) (base cap : ℚ) (e : HttpError)
    (hx : request_exec 0 = .error e)
    (hnt : isTransientCode (extract_code e) = false) :
    (∀ code : Nat, isTransientCode (Option.some code) = true ↔
      (code = 429 ∨ code = 500 ∨ code = 502 ∨ code = 503 ∨ code = 504)) ∧
    isTransientCode Option.none = false ∧
    call_with_retry request_exec jitter retries base cap = ⟨.error e, 1, []⟩ := by
  refine ⟨?_, rfl, ?_⟩
  · intro code
    simp [isTransientCode, TRANSIENT_CODES, List.contains]
  · exact retryAux_nontransient request_exec jitter base cap retries 0 e hx hnt

/-- C6: call_with_retry terminates with a bounded number of attempts.  If
every allowed attempt raises a transient-status failure, the invocation is
attempted exactly retries + 1 times and the last failure is re-raised
unchanged; if some attempt succeeds after transient failures, its value is
returned immediately after that attempt. -/
theorem retry_exhaustion {V : Type} (request_exec : Nat → Except HttpError V)
    (jitter : Nat → ℚ) (retries : Nat) (base cap : ℚ) :
    ((∀ n, n ≤ retries → isTransientFailure (request_exec n) = true) →
      (call_with_retry request_exec jitter retries base cap).attempts = retries + 1 ∧
      (∀ e, request_exec retries = .error e →
        (call_with_retry request_exec jitter retries base cap).result = .error e)) ∧
    (∀ k v, k ≤ retries →
      (∀ n, n < k → isTransientFailure (request_exec n) = true) →
      request_exec k = .ok v →
      (call_with_retry request_exec jitter retries base cap).result = .ok v ∧
      (call_with_retry request_exec jitter retries base cap).attempts = k + 1) := by
  constructor
  · intro hall
    have h := retryAux_exhaust request_exec jitter base cap retries 0
      (fun n h1 h2 => hall n (by omega))
    rw [show (0 : Nat) + retries = retries from by omega] at h
    unfold call_with_retry
    rw [h]
    exact ⟨rfl, fun e he => by simp [he]⟩
  · intro k v hk htrans hok
    have h := retryAux_success request_exec jitter base cap retries 0 k v
      (Nat.zero_le k) (by omega) (fun n h1 h2 => htrans n h2) hok
    rw [show k - 0 = k from by omega] at h
    unfold call_with_retry
    rw [h]
    exact ⟨rfl, rfl⟩

/-- C7: under the backoff schedule, the sleep before the (n+1)-st re-attempt
(n zero-indexed) is min(cap, base * 2 ^ n) + jitter n with the jitter drawn
from [0, 1/4); the deterministic part is non-decreasing in n (for a
non-negative base) and never exceeds cap, and the whole sleep differs from
the deterministic part by less than 1/4. -/
theorem retry_backoff_schedule {V : Type} (request_exec : Nat → Except HttpError V)
    (jitter : Nat → ℚ) (retries : Nat) (base cap : ℚ)
    (hall : ∀ n, n ≤ retries → isTransientFailure (request_exec n) = true)
    (hjit : ∀ n, 0 ≤ jitter n ∧ jitter n < 1/4)
    (hbase : 0 ≤ base) :
    (call_with_retry request_exec jitter retries base cap).sleeps
      = (List.range retries).map (fun n => min cap (base * 2 ^ n) + jitter n) ∧
    (∀ m n : Nat, m ≤ n → min cap (base * 2 ^ m) ≤ min cap (base * 2 ^ n)) ∧
    (∀ n : Nat, min cap (base * 2 ^ n) ≤ cap) ∧
    (∀ n : Nat, min cap (base * 2 ^ n) ≤ min cap (base * 2 ^ n) + jitter n ∧
      min cap (base * 2 ^ n) + jitter n < min cap (base * 2 ^ n) + 1/4) := by
  refine ⟨?_, ?_, ?_, ?_⟩
  · have h := retryAux_exhaust request_exec jitter base cap retries 0
      (fun n h1 h2 => hall n (by omega))
    unfold call_with_retry
    rw [h]
    show backoffList jitter base cap 0 retries = _
    rw [backoffList_eq_map]
    simp
  · intro m n hmn
    refine min_le_min le_rfl ?_
    exact mul_le_mul_of_nonneg_left (pow_le_pow_right₀ (by norm_num) hmn) hbase
  · intro n
    exact min_le_left _ _
  · intro n
    exact ⟨le_add_of_nonneg_right (hjit n).1, add_lt_add_left (hjit n).2 _⟩

/-- C8: argument freezing is order-independent on mappings: two dicts with
the same key/value pairs in different insertion orders freeze to the same
tuple of key-sorted (key, frozen value) pairs, so keyword-argument order
does not change the derived cache key. -/
theorem freeze_dict_order_independent (l1 l2 : List (String × PyVal))
    (hperm : l1.Perm l2) (hnd : (l1.map Prod.fst).Nodup)
    (modName fnName : String) (args : PyList) :
    _freeze (.dict (PyDict.ofEntries l1)) = _freeze (.dict (PyDict.ofEntries l2)) ∧
    memoKey modName fnName args (PyDict.ofEntries l1)
      = memoKey modName fnName args (PyDict.ofEntries l2) := by
  have key : sortPairs (PyDict.freezeEntries (PyDict.ofEntries l1))
      = sortPairs (PyDict.freezeEntries (PyDict.ofEntries l2)) := by
    rw [freezeEntries_ofEntries, freezeEntries_ofEntries]
    apply sortPairs_eq_of_perm
    · exact hperm.map _
    · rw [List.map_map]
      exact hnd
  have h1 : _freeze (.dict (PyDict.ofEntries l1))
      = _freeze (.dict (PyDict.ofEntries l2)) := by
    simp only [_freeze]
    rw [key]
  exact ⟨h1, by simp [memoKey, h1]⟩

/-- C9: freezing a set keeps the set's iteration order rather than sorting
its elements: freeze(set) is the tuple of frozen elements in spine order,
and two sets with identical elements in different iteration orders freeze
differently, hence derive different cache keys. -/
theorem freeze_set_iteration_order :
    (∀ xs : PyList, _freeze (.set xs) = .tuple (PyList.freezeAll xs)) ∧
    (∀ l : List PyVal,
      PyList.freezeAll (PyList.ofList l) = PyList.ofList (l.map _freeze)) ∧
    ((PyList.ofList [PyVal.int 1, PyVal.int 2]).toList.Perm
        (PyList.ofList [PyVal.int 2, PyVal.int 1]).toList ∧
      _freeze (.set (PyList.ofList [PyVal.int 1, PyVal.int 2]))
        ≠ _freeze (.set (PyList.ofList [PyVal.int 2, PyVal.int 1])) ∧
      memoKey "m" "f" (PyList.cons (.set (PyList.ofList [PyVal.int 1, PyVal.int 2])) .nil) .nil
        ≠ memoKey "m" "f"
            (PyList.cons (.set (PyList.ofList [PyVal.int 2, PyVal.int 1])) .nil) .nil) := by
  refine ⟨fun xs => rfl, freezeAll_ofList, by decide, by decide, by decide⟩

/-- C2: after set(k, v) at time t0 on a well-formed cache (positive maxsize,
store within bound, no stale future expiries beyond t0 + ttl, no duplicate
keys), get(k) at any probe time before t0 + ttl returns v and leaves the
cache untouched, and get(k) at any probe time after t0 + ttl returns absent
and deletes the entry from the store as a side effect of that get call. -/
theorem ttl_expiry (c : TTLCache) (t0 : Int) (k v : PyVal) (probe : Int)
    (hkeys : (c._store.map Prod.fst).Nodup)
    (hmono : ∀ p ∈ c._store, p.2.1 ≤ t0 + c.ttl)
    (hmax : 1 ≤ c.maxsize) (hinv : c._store.length ≤ c.maxsize) :
    (probe < t0 + c.ttl →
      ((c.set t0 k v).get probe k).1 = Option.some v ∧
      ((c.set t0 k v).get probe k).2 = c.set t0 k v) ∧
    (t0 + c.ttl < probe →
      ((c.set t0 k v).get probe k).1 = Option.none ∧
      lookupKey k (((c.set t0 k v).get probe k).2)._store = Option.none) := by
  have hlook := TTLCache.lookup_set_self c t0 k v hmono hmax hinv
  constructor
  · intro hprobe
    have hnotlt : ¬ t0 + c.ttl < probe := by omega
    constructor
    · simp [TTLCache.get, hlook, hnotlt]
    · simp [TTLCache.get, hlook, hnotlt]
  · intro hprobe
    have hnd' : ((c.set t0 k v)._store.map Prod.fst).Nodup :=
      TTLCache.keys_set_nodup c t0 k v hkeys
    constructor
    · simp [TTLCache.get, hlook, hprobe]
    · simp only [TTLCache.get, hlook, hprobe, if_true]
      exact lookupKey_eq_none_of_not_mem k _ (not_mem_keys_popKey k _ hnd')

/-- C3: a set call never rejects: on a well-formed cache it stores its entry
retrievably; after any single set, and after any sequence of set calls, the
store holds at most maxsize entries; and whenever the insertion makes the
store exceed maxsize, exactly one entry is evicted, one whose expiry is
minimal among all entries present at eviction time. -/
theorem eviction_bound (c : TTLCache) :
    (∀ t k v, (∀ p ∈ c._store, p.2.1 ≤ t + c.ttl) → 1 ≤ c.maxsize →
      c._store.length ≤ c.maxsize →
      lookupKey k (c.set t k v)._store = Option.some (t + c.ttl, v)) ∧
    (∀ t k v, c._store.length ≤ c.maxsize →
      (c.set t k v)._store.length ≤ c.maxsize) ∧
    (∀ ops, c._store.length ≤ c.maxsize →
      (applySets ops c)._store.length ≤ c.maxsize) ∧
    (∀ t k v, c.maxsize < (insertKey k (t + c.ttl, v) c._store).length →
      ∃ k₀ e₀, minEntry (insertKey k (t + c.ttl, v) c._store) = Option.some (k₀, e₀) ∧
        (∃ v₀, (k₀, (e₀, v₀)) ∈ insertKey k (t + c.ttl, v) c._store) ∧
        (∀ p ∈ insertKey k (t + c.ttl, v) c._store, e₀ ≤ p.2.1) ∧
        (c.set t k v)._store = popKey k₀ (insertKey k (t + c.ttl, v) c._store) ∧
        (c.set t k v)._store.length + 1 = (insertKey k (t + c.ttl, v) c._store).length) := by
  refine ⟨?_, ?_, ?_, ?_⟩
  · intro t k v hmono hmax hinv
    exact TTLCache.lookup_set_self c t k v hmono hmax hinv
  · intro t k v hinv
    exact TTLCache.length_set_le c t k v hinv
  · intro ops hinv
    exact applySets_length_le ops c hinv
  · intro t k v hgt
    have hlen : ¬ (insertKey k (t + c.ttl, v) c._store).length ≤ c.maxsize := by omega
    have hne : insertKey k (t + c.ttl, v) c._store ≠ [] := by
      intro h0
      rw [h0] at hgt
      simp at hgt
    rcases minEntry_isSome _ hne with ⟨k₀, e₀, hmin⟩
    rcases minEntry_mem _ k₀ e₀ hmin with ⟨v₀, hv₀⟩
    refine ⟨k₀, e₀, hmin, ⟨v₀, hv₀⟩, minEntry_le _ k₀ e₀ hmin, ?_, ?_⟩
    · show (TTLCache.set c t k v)._store = _
      unfold TTLCache.set
      rw [evict_of_gt _ hlen k₀ e₀ hmin]
    · show (TTLCache.set c t k v)._store.length + 1 = _
      unfold TTLCache.set
      rw [evict_of_gt _ hlen k₀ e₀ hmin]
      exact length_popKey_mem k₀ _ (List.mem_map_of_mem Prod.fst hv₀)

/-- C1 (amended): for a memoized function whose successful result is not
None, on a well-formed cache with no unexpired entry under the derived key
(the key may be absent, or sit under an already-expired entry that the first
lookup lazily removes), the first call returns (result, false) invoking the
function once, and a second call with the same arguments while the stored
entry is unexpired returns (result, true) without invoking the function
again: the total invocation count over both calls is exactly 1.  (The
unamended claim fails when the result is None, see the counterexample and
C10.) -/
theorem memoize_round_trip_not_none {E : Type} (f : PyList → PyDict → Except E PyVal)
    (modName fnName : String) (c : TTLCache) (t1 t2 : Int)
    (args : PyList) (kwargs : PyDict) (v : PyVal)
    (hf : f args kwargs = Except.ok v)
    (hv : v ≠ PyVal.none)
    (hnofresh : ∀ exp w, lookupKey (memoKey modName fnName args kwargs) c._store
        = Option.some (exp, w) → exp < t1)
    (hmono : ∀ p ∈ c._store, p.2.1 ≤ t1 + c.ttl)
    (hmax : 1 ≤ c.maxsize) (hinv : c._store.length ≤ c.maxsize)
    (hfresh : ¬ t1 + c.ttl < t2) :
    (ttl_memoize f modName fnName c t1 args kwargs).result = Except.ok (v, false) ∧
    (ttl_memoize f modName fnName c t1 args kwargs).invocations = 1 ∧
    (ttl_memoize f modName fnName
        (ttl_memoize f modName fnName c t1 args kwargs).cache t2 args kwargs).result
      = Except.ok (v, true) ∧
    (ttl_memoize f modName fnName
        (ttl_memoize f modName fnName c t1 args kwargs).cache t2 args kwargs).invocations
      = 0 := by
  have hmiss := get_miss_of_expired c t1 (memoKey modName fnName args kwargs) hnofresh
  have h1 := (ttl_memoize_of_miss f modName fnName c t1 args kwargs hmiss).2.2 v hf
  have hsub := get_store_sublist c t1 (memoKey modName fnName args kwargs)
  have httl := TTLCache.ttl_get c t1 (memoKey modName fnName args kwargs)
  have hmax' : 1 ≤ ((c.get t1 (memoKey modName fnName args kwargs)).2).maxsize := by
    rw [TTLCache.maxsize_get]
    exact hmax
  have hinv' : ((c.get t1 (memoKey modName fnName args kwargs)).2)._store.length
      ≤ ((c.get t1 (memoKey modName fnName args kwargs)).2).maxsize := by
    rw [TTLCache.maxsize_get]
    exact le_trans hsub.length_le hinv
  have hmono' : ∀ p ∈ ((c.get t1 (memoKey modName fnName args kwargs)).2)._store,
      p.2.1 ≤ t1 + ((c.get t1 (memoKey modName fnName args kwargs)).2).ttl := by
    rw [httl]
    intro p hp
    exact hmono p (hsub.subset hp)
  have hlook := TTLCache.lookup_set_self
    ((c.get t1 (memoKey modName fnName args kwargs)).2) t1
    (memoKey modName fnName args kwargs) v hmono' hmax' hinv'
  rw [httl] at hlook
  have h2 := memoize_hit f modName fnName
    (((c.get t1 (memoKey modName fnName args kwargs)).2).set t1
      (memoKey modName fnName args kwargs) v) t2 args kwargs
    (t1 + c.ttl) v hlook hfresh hv
  rw [h1]
  exact ⟨rfl, rfl, by rw [h2], by rw [h2]⟩

def cexNoneF : PyList → PyDict → Except Unit PyVal := fun _ _ => .ok PyVal.none

def cexEmptyCache : TTLCache := ⟨1024, 600, []⟩

/-- Counterexample to C1 as stated: with an underlying function whose result
is None, the second call with the same arguments misses again: it returns
(None, false) rather than (None, true), and the underlying-invocation count
over the two calls reaches 2, not 1. -/
theorem memoize_round_trip_cex :
    (ttl_memoize cexNoneF "m" "f" cexEmptyCache 0 .nil .nil).result
      = Except.ok (PyVal.none, false) ∧
    (ttl_memoize cexNoneF "m" "f"
        (ttl_memoize cexNoneF "m" "f" cexEmptyCache 0 .nil .nil).cache 0 .nil .nil).result
      = Except.ok (PyVal.none, false) ∧
    (ttl_memoize cexNoneF "m" "f" cexEmptyCache 0 .nil .nil).invocations +
      (ttl_memoize cexNoneF "m" "f"
        (ttl_memoize cexNoneF "m" "f" cexEmptyCache 0 .nil .nil).cache 0 .nil .nil).invocations
      = 2 := by
  refine ⟨by decide, by decide, by decide⟩

/-- C4 (amended): when the underlying function fails on a cache miss, the
failure propagates unchanged, the function was invoked exactly once, nothing
is written to the cache: the post-call cache is exactly the post-lookup
cache, whose store is a sublist of the pre-call store (it can differ from it
only by the lazy removal of an already-expired entry under the key during
the lookup); and a subsequent call with the same arguments, at any time,
invokes the function again instead of replaying a cached failure.  (The
unamended claim's parenthetical "the cache state is unchanged" fails when an
expired entry sits under the key, see the counterexample.) -/
theorem failure_not_cached {E : Type} (f : PyList → PyDict → Except E PyVal)
    (modName fnName : String) (c : TTLCache) (t : Int)
    (args : PyList) (kwargs : PyDict) (e : E)
    (hf : f args kwargs = Except.error e)
    (hkeys : (c._store.map Prod.fst).Nodup)
    (hmiss : ((c.get t (memoKey modName fnName args kwargs)).1).getD PyVal.none
      = PyVal.none) :
    (ttl_memoize f modName fnName c t args kwargs).result = Except.error e ∧
    (ttl_memoize f modName fnName c t args kwargs).invocations = 1 ∧
    (ttl_memoize f modName fnName c t args kwargs).cache
      = (c.get t (memoKey modName fnName args kwargs)).2 ∧
    (ttl_memoize f modName fnName c t args kwargs).cache._store.Sublist c._store ∧
    (∀ t2 : Int,
      (ttl_memoize f modName fnName
        (ttl_memoize f modName fnName c t args kwargs).cache t2 args kwargs).result
        = Except.error e ∧
      (ttl_memoize f modName fnName
        (ttl_memoize f modName fnName c t args kwargs).cache t2 args kwargs).invocations
        = 1) := by
  have h1 := (ttl_memoize_of_miss f modName fnName c t args kwargs hmiss).2.1 e hf
  refine ⟨by rw [h1], by rw [h1], by rw [h1], ?_, ?_⟩
  · rw [h1]
    exact get_store_sublist c t (memoKey modName fnName args kwargs)
  · intro t2
    have hkey' := miss_propagates c t (memoKey modName fnName args kwargs) hkeys hmiss
    have hmiss2 := get_value_none ((c.get t (memoKey modName fnName args kwargs)).2) t2
      (memoKey modName fnName args kwargs) hkey'
    have h2 := (ttl_memoize_of_miss f modName fnName
      ((c.get t (memoKey modName fnName args kwargs)).2) t2 args kwargs hmiss2).2.1 e hf
    rw [h1, h2]
    exact ⟨rfl, rfl⟩

def cexFailF : PyList → PyDict → Except Unit PyVal := fun _ _ => .error ()

def cexExpiredCache : TTLCache :=
  ⟨1024, 600, [(memoKey "m" "f" .nil .nil, (-1, PyVal.int 5))]⟩

/-- Counterexample to C4 as stated: with an already-expired entry under the
key, a failing call does change the cache state: the lookup inside the call
lazily deletes the expired entry, so the post-call cache differs from the
pre-call cache (while the failure still propagates after one invocation). -/
theorem failure_not_cached_cex :
    (ttl_memoize cexFailF "m" "f" cexExpiredCache 0 .nil .nil).result
      = Except.error () ∧
    (ttl_memoize cexFailF "m" "f" cexExpiredCache 0 .nil .nil).invocations = 1 ∧
    (ttl_memoize cexFailF "m" "f" cexExpiredCache 0 .nil .nil).cache ≠ cexExpiredCache := by
  refine ⟨by decide, by decide, by decide⟩

/-- C10: a memoized function whose successful result is None is never served
from cache: since the wrapper tests the lookup with "is not None" and the
cache returns None both for absent keys and for a stored None, every call
(under a key whose entries can only ever hold None) re-invokes the function
and returns (None, false); in particular a first and an immediate second
call both miss, each invoking the function once. -/
theorem memoize_none_never_served {E : Type} (f : PyList → PyDict → Except E PyVal)
    (modName fnName : String) (c : TTLCache) (t1 t2 : Int)
    (args : PyList) (kwargs : PyDict)
    (hf : f args kwargs = Except.ok PyVal.none)
    (hkeys : (c._store.map Prod.fst).Nodup)
    (hkey : ∀ exp w, lookupKey (memoKey modName fnName args kwargs) c._store
        = Option.some (exp, w) → w = PyVal.none) :
    (ttl_memoize f modName fnName c t1 args kwargs).result
      = Except.ok (PyVal.none, false) ∧
    (ttl_memoize f modName fnName c t1 args kwargs).invocations = 1 ∧
    (ttl_memoize f modName fnName
        (ttl_memoize f modName fnName c t1 args kwargs).cache t2 args kwargs).result
      = Except.ok (PyVal.none, false) ∧
    (ttl_memoize f modName fnName
        (ttl_memoize f modName fnName c t1 args kwargs).cache t2 args kwargs).invocations
      = 1 := by
  have hmiss1 := get_value_none c t1 (memoKey modName fnName args kwargs) hkey
  have h1 := (ttl_memoize_of_miss f modName fnName c t1 args kwargs hmiss1).2.2
    PyVal.none hf
  have hnd1 : (((c.get t1 (memoKey modName fnName args kwargs)).2)._store.map
      Prod.fst).Nodup :=
    List.Nodup.sublist ((get_store_sublist c t1 _).map Prod.fst) hkeys
  have hkey2 : ∀ exp w,
      lookupKey (memoKey modName fnName args kwargs)
        (ttl_memoize f modName fnName c t1 args kwargs).cache._store
        = Option.some (exp, w) → w = PyVal.none := by
    intro exp w hw
    rw [h1] at hw
    rcases TTLCache.lookup_set_cases ((c.get t1 (memoKey modName fnName args kwargs)).2)
        t1 (memoKey modName fnName args kwargs) PyVal.none hnd1 with hc | hc
    · rw [hc] at hw
      exact Option.noConfusion hw
    · rw [hc] at hw
      have h3 : PyVal.none = w := congrArg Prod.snd (Option.some.inj hw)
      exact h3.symm
  have hmiss2 := get_value_none (ttl_memoize f modName fnName c t1 args kwargs).cache t2
    (memoKey modName fnName args kwargs) hkey2
  have h2 := (ttl_memoize_of_miss f modName fnName
    (ttl_memoize f modName fnName c t1 args kwargs).cache t2 args kwargs hmiss2).2.2
    PyVal.none hf
  exact ⟨by rw [h1], by rw [h1], by rw [h2], by rw [h2]⟩

/- Witnesses: each claim theorem with hypotheses applied at a concrete
input, with every hypothesis discharged there. -/

def wNotNoneF : PyList → PyDict → Except Unit PyVal := fun _ _ => .ok (PyVal.int 7)

/-- Witness for memoize_round_trip_not_none: on a cache holding an
already-expired entry under the key, the first call at time 0 lazily removes
it, misses and invokes, and a second call at time 100 hits without invoking
again. -/
theorem memoize_round_trip_not_none_witness :
    (ttl_memoize wNotNoneF "m" "f" cexExpiredCache 0 .nil .nil).result
      = Except.ok (PyVal.int 7, false) ∧
    (ttl_memoize wNotNoneF "m" "f" cexExpiredCache 0 .nil .nil).invocations = 1 ∧
    (ttl_memoize wNotNoneF "m" "f"
        (ttl_memoize wNotNoneF "m" "f" cexExpiredCache 0 .nil .nil).cache 100 .nil
        .nil).result
      = Except.ok (PyVal.int 7, true) ∧
    (ttl_memoize wNotNoneF "m" "f"
        (ttl_memoize wNotNoneF "m" "f" cexExpiredCache 0 .nil .nil).cache 100 .nil
        .nil).invocations
      = 0 :=
  memoize_round_trip_not_none wNotNoneF "m" "f" cexExpiredCache 0 100 .nil .nil
    (PyVal.int 7) rfl (by decide)
    (fun exp w hw => by
      have h := Option.some.inj hw
      have he : (-1 : Int) = exp := congrArg Prod.fst h
      rw [← he]
      decide)
    (by norm_num [cexExpiredCache]) (by decide) (by decide) (by decide)

def w2Cache : TTLCache := ⟨2, 600, []⟩

/-- Witness for ttl_expiry on a concrete cache, key and probe time. -/
theorem ttl_expiry_witness :
    ((100:Int) < 0 + w2Cache.ttl →
      ((w2Cache.set 0 (PyVal.int 1) (PyVal.int 2)).get 100 (PyVal.int 1)).1
        = Option.some (PyVal.int 2) ∧
      ((w2Cache.set 0 (PyVal.int 1) (PyVal.int 2)).get 100 (PyVal.int 1)).2
        = w2Cache.set 0 (PyVal.int 1) (PyVal.int 2)) ∧
    ((0:Int) + w2Cache.ttl < 100 →
      ((w2Cache.set 0 (PyVal.int 1) (PyVal.int 2)).get 100 (PyVal.int 1)).1
        = Option.none ∧
      lookupKey (PyVal.int 1)
        (((w2Cache.set 0 (PyVal.int 1) (PyVal.int 2)).get 100 (PyVal.int 1)).2)._store
        = Option.none) :=
  ttl_expiry w2Cache 0 (PyVal.int 1) (PyVal.int 2) 100
    (by decide) (by simp [w2Cache]) (by decide) (by decide)

def w3Cache : TTLCache := ⟨1, 600, [(PyVal.int 9, (50, PyVal.int 0))]⟩

/-- Witness for eviction_bound: a full one-slot cache accepts a fresh key,
stays within its bound along a sequence of writes, and evicts exactly the
earliest-expiring entry when it overflows. -/
theorem eviction_bound_witness :
    lookupKey (PyVal.int 1) (w3Cache.set 0 (PyVal.int 1) (PyVal.int 2))._store
      = Option.some ((0:Int) + w3Cache.ttl, PyVal.int 2) ∧
    (w3Cache.set 0 (PyVal.int 1) (PyVal.int 2))._store.length ≤ w3Cache.maxsize ∧
    (applySets [(0, PyVal.int 1, PyVal.int 2), (7, PyVal.int 3, PyVal.int 4)]
        w3Cache)._store.length ≤ w3Cache.maxsize ∧
    (∃ k₀ e₀,
      minEntry (insertKey (PyVal.int 1) ((0:Int) + w3Cache.ttl, PyVal.int 2) w3Cache._store)
        = Option.some (k₀, e₀) ∧
      (∃ v₀, (k₀, (e₀, v₀)) ∈
        insertKey (PyVal.int 1) ((0:Int) + w3Cache.ttl, PyVal.int 2) w3Cache._store) ∧
      (∀ p ∈ insertKey (PyVal.int 1) ((0:Int) + w3Cache.ttl, PyVal.int 2) w3Cache._store,
        e₀ ≤ p.2.1) ∧
      (w3Cache.set 0 (PyVal.int 1) (PyVal.int 2))._store
        = popKey k₀
            (insertKey (PyVal.int 1) ((0:Int) + w3Cache.ttl, PyVal.int 2) w3Cache._store) ∧
      (w3Cache.set 0 (PyVal.int 1) (PyVal.int 2))._store.length + 1
        = (insertKey (PyVal.int 1) ((0:Int) + w3Cache.ttl, PyVal.int 2)
            w3Cache._store).length) :=
  ⟨(eviction_bound w3Cache).1 0 (PyVal.int 1) (PyVal.int 2)
      (by decide) (by decide) (by decide),
   (eviction_bound w3Cache).2.1 0 (PyVal.int 1) (PyVal.int 2) (by decide),
   (eviction_bound w3Cache).2.2.1 [(0, PyVal.int 1, PyVal.int 2), (7, PyVal.int 3, PyVal.int 4)]
      (by decide),
   (eviction_bound w3Cache).2.2.2 0 (PyVal.int 1) (PyVal.int 2) (by decide)⟩

/-- Witness for failure_not_cached: a failing call on an empty cache
propagates the failure after one invocation, writes nothing, and a second
call at time 5 invokes the function again. -/
theorem failure_not_cached_witness :
    (ttl_memoize cexFailF "m" "f" cexEmptyCache 0 .nil .nil).result = Except.error () ∧
    (ttl_memoize cexFailF "m" "f" cexEmptyCache 0 .nil .nil).invocations = 1 ∧
    (ttl_memoize cexFailF "m" "f" cexEmptyCache 0 .nil .nil).cache._store.Sublist
      cexEmptyCache._store ∧
    (ttl_memoize cexFailF "m" "f"
        (ttl_memoize cexFailF "m" "f" cexEmptyCache 0 .nil .nil).cache 5 .nil .nil).result
      = Except.error () ∧
    (ttl_memoize cexFailF "m" "f"
        (ttl_memoize cexFailF "m" "f" cexEmptyCache 0 .nil .nil).cache 5 .nil
        .nil).invocations
      = 1 :=
  ⟨(failure_not_cached cexFailF "m" "f" cexEmptyCache 0 .nil .nil () rfl
      (by decide) rfl).1,
   (failure_not_cached cexFailF "m" "f" cexEmptyCache 0 .nil .nil () rfl
      (by decide) rfl).2.1,
   (failure_not_cached cexFailF "m" "f" cexEmptyCache 0 .nil .nil () rfl
      (by decide) rfl).2.2.2.1,
   ((failure_not_cached cexFailF "m" "f" cexEmptyCache 0 .nil .nil () rfl
      (by decide) rfl).2.2.2.2 5).1,
   ((failure_not_cached cexFailF "m" "f" cexEmptyCache 0 .nil .nil () rfl
      (by decide) rfl).2.2.2.2 5).2⟩

def w5Err : HttpError := ⟨Option.some 404, Option.none⟩

def w5Exec : Nat → Except HttpError Nat := fun _ => .error w5Err

def wJitZero : Nat → ℚ := fun _ => 0

/-- Witness for nontransient_short_circuit: a 404 failure is raised after
exactly one attempt with no sleeps. -/
theorem nontransient_short_circuit_witness :
    isTransientCode (extract_code w5Err) = false ∧
    call_with_retry w5Exec wJitZero 5 (1/2) 8 =
      ⟨.error w5Err, 1, []⟩ :=
  ⟨by decide,
   (nontransient_short_circuit w5Exec wJitZero 5 (1/2) 8 w5Err rfl (by decide)).2.2⟩

def w6Err : HttpError := ⟨Option.some 500, Option.none⟩

def w6Exec : Nat → Except HttpError Nat := fun _ => .error w6Err

def w6OkExec : Nat → Except HttpError Nat := fun _ => .ok 42

/-- Witness for retry_exhaustion: an always-failing transient invocation
with retries = 2 is attempted 3 times and the last failure is re-raised;
an immediately succeeding invocation returns after 1 attempt. -/
theorem retry_exhaustion_witness :
    (call_with_retry w6Exec wJitZero 2 (1/2) 8).attempts = 3 ∧
    (call_with_retry w6Exec wJitZero 2 (1/2) 8).result = .error w6Err ∧
    (call_with_retry w6OkExec wJitZero 2 (1/2) 8).result = .ok 42 ∧
    (call_with_retry w6OkExec wJitZero 2 (1/2) 8).attempts = 1 :=
  ⟨((retry_exhaustion w6Exec wJitZero 2 (1/2) 8).1 (fun _ _ => rfl)).1,
   ((retry_exhaustion w6Exec wJitZero 2 (1/2) 8).1 (fun _ _ => rfl)).2 w6Err rfl,
   ((retry_exhaustion w6OkExec wJitZero 2 (1/2) 8).2 0 42 (by decide)
      (fun n hn => absurd hn (Nat.not_lt_zero n)) rfl).1,
   ((retry_exhaustion w6OkExec wJitZero 2 (1/2) 8).2 0 42 (by decide)
      (fun n hn => absurd hn (Nat.not_lt_zero n)) rfl).2⟩

/-- Witness for retry_backoff_schedule: with zero jitter, base 1/2 and
cap 8, the two sleeps of an exhausted run follow the schedule, the
deterministic backoff is monotone between attempts 0 and 1 and capped. -/
theorem retry_backoff_schedule_witness :
    (call_with_retry w6Exec wJitZero 2 (1/2) 8).sleeps
      = (List.range 2).map (fun n => min 8 ((1/2) * 2 ^ n) + wJitZero n) ∧
    min (8:ℚ) ((1/2) * 2 ^ 0) ≤ min (8:ℚ) ((1/2) * 2 ^ 1) ∧
    min (8:ℚ) ((1/2) * 2 ^ 1) ≤ 8 :=
  ⟨(retry_backoff_schedule w6Exec wJitZero 2 (1/2) 8 (fun _ _ => rfl)
      (fun _ => ⟨le_refl 0, by norm_num [wJitZero]⟩) (by norm_num)).1,
   (retry_backoff_schedule w6Exec wJitZero 2 (1/2) 8 (fun _ _ => rfl)
      (fun _ => ⟨le_refl 0, by norm_num [wJitZero]⟩) (by norm_num)).2.1 0 1 (by decide),
   (retry_backoff_schedule w6Exec wJitZero 2 (1/2) 8 (fun _ _ => rfl)
      (fun _ => ⟨le_refl 0, by norm_num [wJitZero]⟩) (by norm_num)).2.2.1 1⟩

/-- Witness for freeze_dict_order_independent at the spec's concrete
example: the dicts a ↦ 1, b ↦ 2 and b ↦ 2, a ↦ 1 freeze identically and
give the same memoization key. -/
theorem freeze_dict_order_independent_witness :
    _freeze (.dict (PyDict.ofEntries [("a", PyVal.int 1), ("b", PyVal.int 2)]))
      = _freeze (.dict (PyDict.ofEntries [("b", PyVal.int 2), ("a", PyVal.int 1)])) ∧
    memoKey "m" "f" .nil (PyDict.ofEntries [("a", PyVal.int 1), ("b", PyVal.int 2)])
      = memoKey "m" "f" .nil (PyDict.ofEntries [("b", PyVal.int 2), ("a", PyVal.int 1)]) :=
  freeze_dict_order_independent [("a", PyVal.int 1), ("b", PyVal.int 2)]
    [("b", PyVal.int 2), ("a", PyVal.int 1)]
    (List.Perm.swap ("b", PyVal.int 2) ("a", PyVal.int 1) [])
    (by decide) "m" "f" .nil

/-- Witness for memoize_none_never_served: a None-returning memoized
function on an empty cache misses on both of two consecutive calls,
invoking the function each time. -/
theorem memoize_none_never_served_witness :
    (ttl_memoize cexNoneF "m" "f" cexEmptyCache 0 .nil .nil).result
      = Except.ok (PyVal.none, false) ∧
    (ttl_memoize cexNoneF "m" "f" cexEmptyCache 0 .nil .nil).invocations = 1 ∧
    (ttl_memoize cexNoneF "m" "f"
        (ttl_memoize cexNoneF "m" "f" cexEmptyCache 0 .nil .nil).cache 3 .nil .nil).result
      = Except.ok (PyVal.none, false) ∧
    (ttl_memoize cexNoneF "m" "f"
        (ttl_memoize cexNoneF "m" "f" cexEmptyCache 0 .nil .nil).cache 3 .nil
        .nil).invocations
      = 1 :=
  memoize_none_never_served cexNoneF "m" "f" cexEmptyCache 0 3 .nil .nil rfl
    (by decide) (fun exp w hw => Option.noConfusion hw)
